import Mathlib

/-!
Verification of the bcash indexer subsystem.

The repository provides the query aggregator (`lib/indexer/fullnodeindexer.js`),
an indexer plugin shim, and an end-to-end test (`test/indexer-test.js`).
The aggregator is embedded directly from its source.  The indexer
synchronization core and the two concrete indexes (transaction, address,
mempool indexers) are not part of the provided source tree — only their
callers and tests are — so they are modelled from the specification
(sections 4.1 to 4.3 of the design document), as noted on each definition.
-/

set_option maxHeartbeats 1000000

/-! ## Basic data model

Hashes and addresses are abstracted as natural numbers; heights are integers
because the aggregator treats height -1 as the unconfirmed sentinel. -/

/-- An outpoint: reference to a transaction output, by funding transaction
hash and output position. -/
structure Outpoint where
  txid : Nat
  vout : Nat
deriving DecidableEq, Repr

/-- A transaction output: destination address and value. -/
structure TXOut where
  addr : Nat
  value : Nat
deriving DecidableEq, Repr

/-- A transaction: its hash, the outpoints it spends and the outputs it
creates. -/
structure TX where
  hash : Nat
  inputs : List Outpoint
  outputs : List TXOut
deriving DecidableEq, Repr

/-- A block: its hash, the previous block hash, and the ordered transaction
list (order is semantically significant, section 4.2 of the spec). -/
structure Block where
  hash : Nat
  prev : Nat
  txs : List TX
deriving DecidableEq, Repr

/-- Transaction metadata as recorded by the transaction index: the
transaction together with its confirmation context.  `height` is -1 for
unconfirmed (mempool) transactions. -/
structure TXMeta where
  tx : TX
  height : Int
deriving DecidableEq, Repr

/-- A coin: a spendable transaction output together with its confirmation
height, as stored by the address index. -/
structure Coin where
  hash : Nat
  index : Nat
  value : Nat
  addr : Nat
  height : Int
deriving DecidableEq, Repr

/-! ## Query aggregator (embedded from `lib/indexer/fullnodeindexer.js`)

The aggregator composes a mempool index, an optional transaction index, an
optional address index and the live chain.  Those collaborators appear here
as records of query functions; the aggregator's own dispatch logic is the
code under verification.  `V` is the abstract type of coin views. -/

/-- Read surface of the mempool index (collaborator of the aggregator). -/
structure MempoolIndexer (V : Type) where
  getMeta : Nat → Option TXMeta
  getSpentView : TX → V
  getMetaByAddress : List Nat → List TXMeta
  hasTX : Nat → Bool

/-- Read surface of the persistent transaction index (collaborator). -/
structure TXIndexer (V : Type) where
  getMeta : Nat → Option TXMeta
  getSpentView : TX → V
  hasTX : Nat → Bool

/-- Read surface of the persistent address index (collaborator). -/
structure AddrIndexer where
  getCoinsByAddress : List Nat → List Coin
  getHashesByAddress : List Nat → List Nat

/-- Read surface of the live chain engine (collaborator). -/
structure ChainView (V : Type) where
  getCoinView : TX → V

/-- The full-node indexer facade: mempool index always present, transaction
and address indexes optional (`index-tx` / `index-address` configuration),
plus the chain fallback and the SPV flag. -/
structure FullNodeIndexer (V : Type) where
  mempoolindex : MempoolIndexer V
  txindex : Option (TXIndexer V)
  addrindex : Option AddrIndexer
  chain : ChainView V
  spv : Bool

/-- Embeds `FullNodeIndexer.getMeta`: mempool first, else the transaction
index when configured, else null. -/
def FullNodeIndexer.getMeta {V : Type} (n : FullNodeIndexer V) (hash : Nat) :
    Option TXMeta :=
  match n.mempoolindex.getMeta hash with
  | some meta => some meta
  | none =>
    match n.txindex with
    | some txi => txi.getMeta hash
    | none => none

/-- Embeds `FullNodeIndexer.hasTX`. -/
def FullNodeIndexer.hasTX {V : Type} (n : FullNodeIndexer V) (hash : Nat) :
    Bool :=
  if n.mempoolindex.hasTX hash then
    true
  else
    match n.txindex with
    | some txi => txi.hasTX hash
    | none => false

/-- Embeds `FullNodeIndexer.getTX`: the transaction of `getMeta`, if any. -/
def FullNodeIndexer.getTX {V : Type} (n : FullNodeIndexer V) (hash : Nat) :
    Option TX :=
  (n.getMeta hash).map (fun m => m.tx)

/-- Embeds `FullNodeIndexer.getMetaView`: mempool spent view for the
unconfirmed sentinel height -1, else the transaction index's spent view when
configured, else the live chain's coin view (degraded mode). -/
def FullNodeIndexer.getMetaView {V : Type} (n : FullNodeIndexer V)
    (meta : TXMeta) : V :=
  if meta.height = -1 then
    n.mempoolindex.getSpentView meta.tx
  else
    match n.txindex with
    | some txi => txi.getSpentView meta.tx
    | none => n.chain.getCoinView meta.tx

/-- The lookup loop of `getMetaByAddress`: fetch each hash from the
transaction index, failing (the `assert(mtx)`) when any entry is absent. -/
def lookupAll (f : Nat → Option TXMeta) : List Nat → Option (List TXMeta)
  | [] => some []
  | h :: rest =>
    match f h, lookupAll f rest with
    | some m, some ms => some (m :: ms)
    | _, _ => none

/-- Embeds `FullNodeIndexer.getMetaByAddress`.  When both persisted indexes
are configured, every hash reported by the address index is looked up in the
transaction index; `assert(mtx)` failing (a missing entry) is modelled as
`none`.  Otherwise only the mempool matches are returned. -/
def FullNodeIndexer.getMetaByAddress {V : Type} (n : FullNodeIndexer V)
    (addrs : List Nat) : Option (List TXMeta) :=
  let mempool := n.mempoolindex.getMetaByAddress addrs
  match n.txindex, n.addrindex with
  | some txi, some ai =>
    match lookupAll txi.getMeta (ai.getHashesByAddress addrs) with
    | some mtxs => some (mtxs ++ mempool)
    | none => none
  | some _, none => some mempool
  | none, some _ => some mempool
  | none, none => some mempool

/-- Embeds `FullNodeIndexer.getCoinsByAddress`: delegate to the address
index when configured, else the empty list. -/
def FullNodeIndexer.getCoinsByAddress {V : Type} (n : FullNodeIndexer V)
    (addrs : List Nat) : List Coin :=
  match n.addrindex with
  | some ai => ai.getCoinsByAddress addrs
  | none => []

/-! ## Error propagation wiring (embedded from `FullNodeIndexer.init`) -/

/-- The three sub-indexes whose error events `init()` can forward. -/
inductive SubIndex
  | txidx
  | addridx
  | mempoolidx
deriving DecidableEq, Repr

/-- Embeds `FullNodeIndexer.init`: the list of sub-indexes whose error
events get a forwarding listener — the transaction index if configured, the
address index if configured, and always the mempool index. -/
def FullNodeIndexer.initWired {V : Type} (n : FullNodeIndexer V) :
    List SubIndex :=
  (match n.txindex with
   | some _ => [SubIndex.txidx]
   | none => []) ++
  (match n.addrindex with
   | some _ => [SubIndex.addridx]
   | none => []) ++
  [SubIndex.mempoolidx]

/-- Error events re-emitted on the facade when sub-index `src` emits error
`e` after `init()`: one re-emission when a forwarding listener was wired,
none otherwise. -/
def FullNodeIndexer.facadeErrors {V : Type} (n : FullNodeIndexer V)
    (src : SubIndex) (e : Nat) : List Nat :=
  if src ∈ n.initWired then [e] else []

/-! ## HTTP query boundary (embedded from the handlers installed in the
`FullNodeIndexer` constructor) -/

/-- An HTTP error as thrown by the `enforce` helper: a message and a status
code. -/
structure HttpError where
  statusCode : Nat
  message : String
deriving DecidableEq, Repr

/-- Embeds the `enforce` helper: a falsy value throws an error with
`statusCode` 400. -/
def enforceCheck (value : Bool) (msg : String) : Except HttpError Unit :=
  if value then Except.ok () else Except.error { statusCode := 400, message := msg }

/-- Modelled from the spec: `Address.fromString` (the address codec is not
part of the provided source tree).  Each handler validates that its address
argument belongs to the configured network and rejects with a client error
before calling into the core, so an unparsable address yields a
`statusCode` 400 error. -/
def addressFromString (parseAddr : String → Option Nat) (s : String) :
    Except HttpError Nat :=
  match parseAddr s with
  | some a => Except.ok a
  | none => Except.error { statusCode := 400, message := "Invalid address." }

/-- Embeds the GET `/coin/address/:address` handler: enforce the address
parameter, enforce non-SPV, parse the address, then query the aggregator. -/
def coinAddressGet {V : Type} (n : FullNodeIndexer V)
    (parseAddr : String → Option Nat) (param : Option String) :
    Except HttpError (List Coin) :=
  match enforceCheck param.isSome "Address is required." with
  | Except.error e => Except.error e
  | Except.ok _ =>
    match enforceCheck (!n.spv) "Cannot get coins in SPV mode." with
    | Except.error e => Except.error e
    | Except.ok _ =>
      match param with
      | none => Except.error { statusCode := 400, message := "Address is required." }
      | some s =>
        match addressFromString parseAddr s with
        | Except.error e => Except.error e
        | Except.ok addr => Except.ok (n.getCoinsByAddress [addr])

/-- Embeds the POST `/coin/address` handler: enforce the addresses array
parameter, enforce non-SPV, then query the aggregator with the array. -/
def coinAddressPost {V : Type} (n : FullNodeIndexer V)
    (param : Option (List Nat)) : Except HttpError (List Coin) :=
  match enforceCheck param.isSome "Address is required." with
  | Except.error e => Except.error e
  | Except.ok _ =>
    match enforceCheck (!n.spv) "Cannot get coins in SPV mode." with
    | Except.error e => Except.error e
    | Except.ok _ =>
      match param with
      | none => Except.error { statusCode := 400, message := "Address is required." }
      | some addrs => Except.ok (n.getCoinsByAddress addrs)

/-- Response shape of the GET `/tx/:hash` handler: 404 when the transaction
is unknown, otherwise the metadata with its coin view. -/
inductive TxResponse (V : Type)
  | notFound
  | found (meta : TXMeta) (view : V)

/-- Embeds the GET `/tx/:hash` handler: enforce the hash parameter (the
`brhash` validation of the request is modelled as an optional parsed hash),
enforce non-SPV, then query the aggregator. -/
def txHashGet {V : Type} (n : FullNodeIndexer V) (param : Option Nat) :
    Except HttpError (TxResponse V) :=
  match enforceCheck param.isSome "Hash is required." with
  | Except.error e => Except.error e
  | Except.ok _ =>
    match enforceCheck (!n.spv) "Cannot get TX in SPV mode." with
    | Except.error e => Except.error e
    | Except.ok _ =>
      match param with
      | none => Except.error { statusCode := 400, message := "Hash is required." }
      | some h =>
        match n.getMeta h with
        | none => Except.ok TxResponse.notFound
        | some meta => Except.ok (TxResponse.found meta (n.getMetaView meta))

/-- Embeds the GET `/tx/address/:address` handler.  The `assert(mtx)`
integrity failure inside `getMetaByAddress` surfaces as an error without a
client status code; it is modelled with status 500. -/
def txAddressGet {V : Type} (n : FullNodeIndexer V)
    (parseAddr : String → Option Nat) (param : Option String) :
    Except HttpError (List (TXMeta × V)) :=
  match enforceCheck param.isSome "Address is required." with
  | Except.error e => Except.error e
  | Except.ok _ =>
    match enforceCheck (!n.spv) "Cannot get TX in SPV mode." with
    | Except.error e => Except.error e
    | Except.ok _ =>
      match param with
      | none => Except.error { statusCode := 400, message := "Address is required." }
      | some s =>
        match addressFromString parseAddr s with
        | Except.error e => Except.error e
        | Except.ok addr =>
          match n.getMetaByAddress [addr] with
          | none => Except.error { statusCode := 500, message := "Assertion failed." }
          | some metas => Except.ok (metas.map (fun m => (m, n.getMetaView m)))

/-- Embeds the POST `/tx/address` handler. -/
def txAddressPost {V : Type} (n : FullNodeIndexer V)
    (param : Option (List Nat)) : Except HttpError (List (TXMeta × V)) :=
  match enforceCheck param.isSome "Address is required." with
  | Except.error e => Except.error e
  | Except.ok _ =>
    match enforceCheck (!n.spv) "Cannot get TX in SPV mode." with
    | Except.error e => Except.error e
    | Except.ok _ =>
      match param with
      | none => Except.error { statusCode := 400, message := "Address is required." }
      | some addrs =>
        match n.getMetaByAddress addrs with
        | none => Except.error { statusCode := 500, message := "Assertion failed." }
        | some metas => Except.ok (metas.map (fun m => (m, n.getMetaView m)))

/-! ## Indexer core and concrete indexes

Modelled from the spec: the indexer synchronization engine (section 4.1),
the concrete index mutation hooks of the transaction and address indexes
(section 4.2) and their persisted content are not part of the provided
source tree — only their callers and tests are.  The content of the two
persisted indexes is modelled as one record: the transaction index as a map
from transaction hash to metadata, the address index as the set of unspent
coins. -/

/-- Modelled from the spec: the combined committed content of the
transaction index (hash to metadata) and the address index (unspent coin
set). -/
structure Content where
  txs : Nat → Option TXMeta
  coins : Finset Coin

/-- The empty index content (nothing indexed yet). -/
def Content.empty : Content where
  txs := fun _ => none
  coins := ∅

/-- Whether coin `c` sits at outpoint `o`. -/
def coinMatches (c : Coin) (o : Outpoint) : Prop :=
  c.hash = o.txid ∧ c.index = o.vout

instance instDecCoinMatches (c : Coin) (o : Outpoint) :
    Decidable (coinMatches c o) :=
  inferInstanceAs (Decidable (c.hash = o.txid ∧ c.index = o.vout))

/-- Modelled from the spec: marking the coin at outpoint `o` spent removes
it from the address index's coin set. -/
def spendCoin (s : Finset Coin) (o : Outpoint) : Finset Coin :=
  s.filter (fun c => ¬ coinMatches c o)

/-- Spend the inputs of a transaction in order. -/
def spendInputs (s : Finset Coin) (ins : List Outpoint) : Finset Coin :=
  ins.foldl spendCoin s

/-- Build the coin derived from output `o` at position `i` of transaction
`txid` confirmed at height `h`. -/
def mkCoin (txid : Nat) (i : Nat) (o : TXOut) (h : Int) : Coin where
  hash := txid
  index := i
  value := o.value
  addr := o.addr
  height := h

/-- The coins created by the outputs of `tx` confirmed at height `h`. -/
def outputCoins (tx : TX) (h : Int) : List Coin :=
  tx.outputs.enum.map (fun p => mkCoin tx.hash p.1 p.2 h)

/-- Add the output coins of `tx` to the coin set. -/
def addOutputs (s : Finset Coin) (tx : TX) (h : Int) : Finset Coin :=
  (outputCoins tx h).foldl (fun t c => insert c t) s

/-- Modelled from the spec (section 4.2, `indexBlock` per transaction):
record the metadata, remove the now-spent coins, add the created coins. -/
def connectTx (h : Int) (c : Content) (tx : TX) : Content where
  txs := fun k => if k = tx.hash then some { tx := tx, height := h } else c.txs k
  coins := addOutputs (spendInputs c.coins tx.inputs) tx h

/-- Modelled from the spec: `indexBlock` applies the block's transactions
strictly in serialization order. -/
def indexBlock (c : Content) (h : Int) (b : Block) : Content :=
  b.txs.foldl (connectTx h) c

/-- Modelled from the spec (section 4.2, `getSpentView`): reconstruct the
coin removed at outpoint `o` from the index's own stored transaction
records, and restore it. -/
def restoreCoin (store : Nat → Option TXMeta) (s : Finset Coin)
    (o : Outpoint) : Finset Coin :=
  match store o.txid with
  | none => s
  | some m =>
    match m.tx.outputs.get? o.vout with
    | none => s
    | some out => insert (mkCoin o.txid o.vout out m.height) s

/-- Restore the coins spent by a transaction's inputs, in reverse input
order. -/
def restoreInputs (store : Nat → Option TXMeta) (s : Finset Coin)
    (ins : List Outpoint) : Finset Coin :=
  ins.foldr (fun o t => restoreCoin store t o) s

/-- Remove the coins created by the outputs of `tx`. -/
def removeOutputs (s : Finset Coin) (tx : TX) : Finset Coin :=
  s.filter (fun c => c.hash ≠ tx.hash)

/-- Modelled from the spec (section 4.2, `unindexBlock` per transaction):
the exact inverse of `connectTx` — remove the derived data, restore the
coins the transaction had marked spent. -/
def disconnectTx (c : Content) (tx : TX) : Content where
  txs := fun k => if k = tx.hash then none else c.txs k
  coins := restoreInputs c.txs (removeOutputs c.coins tx) tx.inputs

/-- Modelled from the spec: `unindexBlock` undoes the block's transactions
in reverse block order. -/
def unindexBlock (c : Content) (b : Block) : Content :=
  b.txs.foldr (fun tx acc => disconnectTx acc tx) c

/-- Read accessor of the modelled transaction index. -/
def Content.getMeta (c : Content) (h : Nat) : Option TXMeta :=
  c.txs h

/-- Read accessor of the modelled address index: all unspent coins paying
address `a`. -/
def Content.getCoinsByAddress (c : Content) (a : Nat) : Finset Coin :=
  c.coins.filter (fun coin => coin.addr = a)

/-- Modelled from the spec: the state of one index — the blocks currently
applied to it (whose length is the recorded state height) and its committed
content. -/
structure IndexerState where
  applied : List Block
  content : Content

/-- The freshly opened index: nothing applied. -/
def IndexerState.initial : IndexerState where
  applied := []
  content := Content.empty

/-- Apply one connect notification: index the block at the next height and
advance the recorded state. -/
def applyConnect (st : IndexerState) (b : Block) : IndexerState where
  applied := st.applied ++ [b]
  content := indexBlock st.content (st.applied.length : Int) b

/-- Apply one disconnect notification: unindex the tip block and retreat
the recorded state. -/
def applyDisconnect (st : IndexerState) (b : Block) : IndexerState where
  applied := st.applied.dropLast
  content := unindexBlock st.content b

/-- Continuous sequential indexing of a canonical chain from genesis. -/
def indexChain (chain : List Block) : IndexerState :=
  chain.foldl applyConnect IndexerState.initial

/-- A single connect or disconnect application performed by the sync
algorithm. -/
inductive SyncOp
  | connect (b : Block)
  | disconnect (b : Block)
deriving DecidableEq, Repr

/-- The hash of the canonical block at height `i`, when there is one. -/
def heightHash (chain : List Block) (i : Nat) : Option Nat :=
  (chain.get? i).map Block.hash

/-- Modelled from the spec (section 4.1, step 2): walk backward from the
index's recorded height until the stored hash matches the chain's hash at
that height, or height reaches the genesis floor.  Returns the fork
point. -/
def forkSearch (chain applied : List Block) : Nat → Nat
  | 0 => 0
  | h + 1 =>
    if heightHash chain h = heightHash applied h then h + 1
    else forkSearch chain applied h

/-- The fork point of the index against the canonical chain. -/
def forkPoint (chain applied : List Block) : Nat :=
  forkSearch chain applied applied.length

/-- The disconnect applications of a sync pass: every applied block above
the fork point, in descending height order. -/
def disconnectOps (applied : List Block) (k : Nat) : List SyncOp :=
  ((applied.drop k).reverse).map SyncOp.disconnect

/-- Modelled from the spec (section 4.1, steps 2-3): the ordered list of
single-block applications a sync pass performs — disconnects down to the
fork point, then connects up to the chain tip. -/
def syncOps (chain : List Block) (st : IndexerState) : List SyncOp :=
  disconnectOps st.applied (forkPoint chain st.applied) ++
    (chain.drop (forkPoint chain st.applied)).map SyncOp.connect

/-- Apply one sync operation to the index state. -/
def applyOp (st : IndexerState) : SyncOp → IndexerState
  | SyncOp.connect b => applyConnect st b
  | SyncOp.disconnect b => applyDisconnect st b

/-- Modelled from the spec (section 4.1): one full sync pass, applying each
operation as its own atomic batch. -/
def sync (chain : List Block) (st : IndexerState) : IndexerState :=
  (syncOps chain st).foldl applyOp st

/-- The coin set after connecting one transaction (checker-side mirror of
`connectTx`). -/
def stepCoins (s : Finset Coin) (h : Int) (tx : TX) : Finset Coin :=
  addOutputs (spendInputs s tx.inputs) tx h

/-- Whether some coin sits at outpoint `o`. -/
def spendableB (s : Finset Coin) (o : Outpoint) : Bool :=
  decide (∃ c ∈ s, coinMatches c o)

/-- Check a transaction's inputs sequentially: each outpoint must be
present, then is spent. -/
def checkInputs (s : Finset Coin) : List Outpoint → Bool
  | [] => true
  | o :: rest => spendableB s o && checkInputs (spendCoin s o) rest

/-- Check one transaction against the running state: fresh hash, spendable
inputs. -/
def checkTx (used : Finset Nat) (s : Finset Coin) (tx : TX) : Bool :=
  decide (tx.hash ∉ used) && checkInputs s tx.inputs

/-- Check a block's transactions in order, threading the running state. -/
def checkTxs (used : Finset Nat) (s : Finset Coin) (h : Int) :
    List TX → Option (Finset Nat × Finset Coin)
  | [] => some (used, s)
  | tx :: rest =>
    if checkTx used s tx then
      checkTxs (insert tx.hash used) (stepCoins s h tx) h rest
    else
      none

/-- Check a sequence of blocks, threading the running state. -/
def checkBlocksSt (used : Finset Nat) (s : Finset Coin) (h : Int) :
    List Block → Option (Finset Nat × Finset Coin)
  | [] => some (used, s)
  | b :: rest =>
    match checkTxs used s h b.txs with
    | some p => checkBlocksSt p.1 p.2 (h + 1) rest
    | none => none

/-- A chain is valid when every transaction has a globally fresh hash and
spends only outputs that are unspent at its position (same-block earlier
outputs included). -/
def validChain (chain : List Block) : Bool :=
  (checkBlocksSt ∅ ∅ 0 chain).isSome

/-- Each block's previous-hash field links to its predecessor. -/
def linked (p : Nat) : List Block → Bool
  | [] => true
  | b :: rest => decide (b.prev = p) && linked b.hash rest

/-- A well-formed chain starts from the zero hash and is hash-linked. -/
def wellFormed (chain : List Block) : Bool :=
  linked 0 chain

/-- Block hashes determine blocks across the given list (collision
freedom). -/
def hashFaithful : List Block → Bool
  | [] => true
  | b :: rest =>
    rest.all (fun b2 => decide (b.hash = b2.hash → b = b2)) && hashFaithful rest

/-- All transaction hashes appearing in a chain. -/
def chainTxids (chain : List Block) : List Nat :=
  chain.flatMap (fun b => b.txs.map TX.hash)

/-- A block consisting of exactly one input-free transaction paying one
output to address `a` (the shape mined in the end-to-end test). -/
def payBlock (a : Nat) (b : Block) : Bool :=
  match b.txs with
  | [t] => t.inputs.isEmpty && decide (t.outputs.map TXOut.addr = [a])
  | _ => false

/-- Every block of the chain pays a single coin to address `a`. -/
def allPay (a : Nat) (chain : List Block) : Bool :=
  chain.all (payBlock a)

/-- The coherence invariant of committed content: the transaction store's
domain is `used`, stored metadata is keyed by its own hash, and every coin
is reconstructible from its funding transaction's stored record. -/
def ContentInv (C : Content) (used : Finset Nat) : Prop :=
  (∀ k, (C.txs k).isSome ↔ k ∈ used) ∧
  (∀ k m, C.txs k = some m → m.tx.hash = k) ∧
  (∀ c ∈ C.coins, ∃ m out, C.txs c.hash = some m ∧
    m.tx.outputs.get? c.index = some out ∧
    c = mkCoin c.hash c.index out m.height)

/-- The inputs of a transaction can be exactly undone against `store`: each
outpoint has a unique matching coin reconstructible from the store, threaded
through the sequential spends. -/
def restorable (store : Nat → Option TXMeta) :
    Finset Coin → List Outpoint → Prop
  | _, [] => True
  | s, o :: rest =>
    (∃ coin, coin ∈ s ∧ coinMatches coin o ∧
      (∀ c ∈ s, coinMatches c o → c = coin) ∧
      ∃ m out, store o.txid = some m ∧
        m.tx.outputs.get? o.vout = some out ∧
        mkCoin o.txid o.vout out m.height = coin)
    ∧ restorable store (spendCoin s o) rest

/-- The per-transaction facts making a block's connect exactly undoable:
fresh hash, no coin carrying the hash yet, restorable inputs — threaded
through the sequential connects. -/
def blockOk (h : Int) : Content → List TX → Prop
  | _, [] => True
  | C, t :: rest =>
    C.txs t.hash = none ∧
    (∀ c ∈ C.coins, c.hash ≠ t.hash) ∧
    restorable (connectTx h C t).txs C.coins t.inputs ∧
    blockOk h (connectTx h C t) rest

/-! ## Concrete sample data (used by the witness theorems) -/

/-- A sample confirmed transaction. -/
def txA : TX where
  hash := 9
  inputs := []
  outputs := [{ addr := 7, value := 50 }]

/-- Sample confirmed metadata for `txA`. -/
def metaA : TXMeta where
  tx := txA
  height := 3

/-- Sample unconfirmed metadata (mempool sentinel height). -/
def metaU : TXMeta where
  tx := txA
  height := -1

/-- The coin created by the sample transaction. -/
def coinA : Coin where
  hash := 9
  index := 0
  value := 50
  addr := 7
  height := 3

/-- A mempool index holding nothing by hash (address queries return the
unconfirmed sample). -/
def mpEmptyIdx : MempoolIndexer Nat where
  getMeta := fun _ => none
  getSpentView := fun _ => 11
  getMetaByAddress := fun _ => [metaU]
  hasTX := fun _ => false

/-- A mempool index resolving hash 1 to the sample metadata. -/
def mpIdxA : MempoolIndexer Nat where
  getMeta := fun h => if h = 1 then some metaA else none
  getSpentView := fun _ => 11
  getMetaByAddress := fun _ => [metaU]
  hasTX := fun h => decide (h = 1)

/-- A transaction index resolving hash 9 to the sample metadata. -/
def txIdxA : TXIndexer Nat where
  getMeta := fun h => if h = 9 then some metaA else none
  getSpentView := fun _ => 22
  hasTX := fun h => decide (h = 9)

/-- An address index reporting the sample coin and hash 9 for every
address. -/
def addrIdxA : AddrIndexer where
  getCoinsByAddress := fun _ => [coinA]
  getHashesByAddress := fun _ => [9]

/-- A chain view returning a fixed coin view. -/
def chainVA : ChainView Nat where
  getCoinView := fun _ => 33

/-- Facade with both persisted indexes configured. -/
def nodeBoth : FullNodeIndexer Nat where
  mempoolindex := mpEmptyIdx
  txindex := some txIdxA
  addrindex := some addrIdxA
  chain := chainVA
  spv := false

/-- Facade whose mempool index resolves hash 1. -/
def nodeMp : FullNodeIndexer Nat where
  mempoolindex := mpIdxA
  txindex := some txIdxA
  addrindex := some addrIdxA
  chain := chainVA
  spv := false

/-- Facade with only the transaction index configured. -/
def nodeTxOnly : FullNodeIndexer Nat where
  mempoolindex := mpEmptyIdx
  txindex := some txIdxA
  addrindex := none
  chain := chainVA
  spv := false

/-- Facade with only the address index configured. -/
def nodeAddrOnly : FullNodeIndexer Nat where
  mempoolindex := mpEmptyIdx
  txindex := none
  addrindex := some addrIdxA
  chain := chainVA
  spv := false

/-- Facade with no persisted index configured. -/
def nodeNone : FullNodeIndexer Nat where
  mempoolindex := mpEmptyIdx
  txindex := none
  addrindex := none
  chain := chainVA
  spv := false

/-- A sample address parser accepting one address string. -/
def parseAddr0 : String → Option Nat :=
  fun s => if s = "addr7" then some 7 else none

/-- A single-output coinbase-style transaction paying address `a`. -/
def cbTx (i a : Nat) : TX where
  hash := i
  inputs := []
  outputs := [{ addr := a, value := 50 }]

/-- Sample genesis block. -/
def blkG : Block where
  hash := 1
  prev := 0
  txs := [cbTx 100 7]

/-- Sample block extending genesis (abandoned branch). -/
def blkA1 : Block where
  hash := 2
  prev := 1
  txs := [cbTx 101 7]

/-- First block of the sample replacement branch. -/
def blkN1 : Block where
  hash := 3
  prev := 1
  txs := [cbTx 102 7]

/-- Second block of the sample replacement branch. -/
def blkN2 : Block where
  hash := 4
  prev := 3
  txs := [cbTx 103 7]

/-- Funding transaction of the dependent pair (larger hash). -/
def txFund : TX where
  hash := 5
  inputs := []
  outputs := [{ addr := 7, value := 50 }]

/-- Spending transaction of the dependent pair: numerically smaller hash,
placed after its funding transaction, spending its output. -/
def txSpendDep : TX where
  hash := 3
  inputs := [{ txid := 5, vout := 0 }]
  outputs := [{ addr := 8, value := 40 }]

/-- Block holding the dependent pair in serialization order. -/
def blkDep : Block where
  hash := 9
  prev := 1
  txs := [txFund, txSpendDep]

/-! ## Theorems: query aggregator (claims C4, C5, C6, C7, C10, C9, C8) -/

/-- Helper: the lookup loop fails exactly when some hash has no entry. -/
theorem lookupAll_eq_none_of_mem {f : Nat → Option TXMeta} {l : List Nat}
    {a : Nat} (ha : a ∈ l) (hf : f a = none) : lookupAll f l = none := by
  induction l with
  | nil => exact absurd ha (List.not_mem_nil a)
  | cons x xs ih =>
    simp only [lookupAll]
    rcases List.mem_cons.mp ha with rfl | hmem
    · rw [hf]
    · rw [ih hmem]
      cases f x <;> rfl

/-- C4: for every hash, the aggregator's getMeta returns the mempool
index's metadata when the mempool index has an entry for that hash;
otherwise, when a transaction index is configured, it returns the
transaction index's result; otherwise it returns an absent result. -/
theorem getMeta_mempool_first {V : Type} (n : FullNodeIndexer V) (h : Nat) :
    (∀ m, n.mempoolindex.getMeta h = some m → n.getMeta h = some m) ∧
    (n.mempoolindex.getMeta h = none →
      (∀ txi, n.txindex = some txi → n.getMeta h = txi.getMeta h) ∧
      (n.txindex = none → n.getMeta h = none)) := by
  unfold FullNodeIndexer.getMeta
  constructor
  · intro m hm
    simp [hm]
  · intro hm
    constructor
    · intro txi ht
      simp [hm, ht]
    · intro ht
      simp [hm, ht]

/-- Witness for C4: the mempool entry for hash 1 wins. -/
theorem getMeta_mempool_first_witness :
    FullNodeIndexer.getMeta nodeMp 1 = some metaA :=
  (getMeta_mempool_first nodeMp 1).1 metaA (by decide)

/-- C5: getMetaView resolves via the mempool's spent view exactly when the
metadata's height is the unconfirmed sentinel -1; otherwise via the
transaction index's spent view when configured; otherwise it falls back to
the live chain's coin view. -/
theorem getMetaView_dispatch {V : Type} (n : FullNodeIndexer V)
    (meta : TXMeta) :
    (meta.height = -1 →
      n.getMetaView meta = n.mempoolindex.getSpentView meta.tx) ∧
    (meta.height ≠ -1 →
      (∀ txi, n.txindex = some txi →
        n.getMetaView meta = txi.getSpentView meta.tx) ∧
      (n.txindex = none →
        n.getMetaView meta = n.chain.getCoinView meta.tx)) := by
  unfold FullNodeIndexer.getMetaView
  constructor
  · intro hh
    simp [hh]
  · intro hh
    rw [if_neg hh]
    constructor
    · intro txi ht
      simp [ht]
    · intro ht
      simp [ht]

/-- Witness for C5: confirmed metadata resolves via the transaction
index's spent view. -/
theorem getMetaView_dispatch_witness :
    FullNodeIndexer.getMetaView nodeBoth metaA = txIdxA.getSpentView metaA.tx :=
  ((getMetaView_dispatch nodeBoth metaA).2 (by decide)).1 txIdxA rfl

/-- C6: with both persisted indexes configured, getMetaByAddress returns
the transaction-index resolutions of the address index's hashes joined
with the mempool matches, and errors when some address-index hash has no
transaction-index entry. -/
theorem getMetaByAddress_both {V : Type} (n : FullNodeIndexer V)
    (txi : TXIndexer V) (ai : AddrIndexer) (addrs : List Nat)
    (htx : n.txindex = some txi) (hai : n.addrindex = some ai) :
    (∀ mtxs, lookupAll txi.getMeta (ai.getHashesByAddress addrs) = some mtxs →
      n.getMetaByAddress addrs =
        some (mtxs ++ n.mempoolindex.getMetaByAddress addrs)) ∧
    ((∃ hh ∈ ai.getHashesByAddress addrs, txi.getMeta hh = none) →
      n.getMetaByAddress addrs = none) := by
  unfold FullNodeIndexer.getMetaByAddress
  constructor
  · intro mtxs hl
    simp [htx, hai, hl]
  · intro hex
    rcases hex with ⟨hh, hmem, hnone⟩
    simp [htx, hai, lookupAll_eq_none_of_mem hmem hnone]

/-- Witness for C6: one address-index hash, resolved by the transaction
index, joined with the mempool match. -/
theorem getMetaByAddress_both_witness :
    FullNodeIndexer.getMetaByAddress nodeBoth [7] =
      some ([metaA] ++ nodeBoth.mempoolindex.getMetaByAddress [7]) :=
  (getMetaByAddress_both nodeBoth txIdxA addrIdxA [7] rfl rfl).1 [metaA]
    (by decide)

/-- C7: getCoinsByAddress delegates to the address index when configured
and returns the empty list (not an error) when not. -/
theorem getCoinsByAddress_dispatch {V : Type} (n : FullNodeIndexer V)
    (addrs : List Nat) :
    (∀ ai, n.addrindex = some ai →
      n.getCoinsByAddress addrs = ai.getCoinsByAddress addrs) ∧
    (n.addrindex = none → n.getCoinsByAddress addrs = []) := by
  unfold FullNodeIndexer.getCoinsByAddress
  constructor
  · intro ai h
    simp [h]
  · intro h
    simp [h]

/-- Witness for C7: delegation with an address index, empty without. -/
theorem getCoinsByAddress_dispatch_witness :
    FullNodeIndexer.getCoinsByAddress nodeBoth [7] =
      addrIdxA.getCoinsByAddress [7] ∧
    FullNodeIndexer.getCoinsByAddress nodeNone [7] = [] :=
  ⟨(getCoinsByAddress_dispatch nodeBoth [7]).1 addrIdxA rfl,
   (getCoinsByAddress_dispatch nodeNone [7]).2 rfl⟩

/-- C10: with exactly one persisted index configured, getMetaByAddress
returns only the mempool index's matches — the single configured persisted
index is never consulted. -/
theorem getMetaByAddress_single_index {V : Type} (n : FullNodeIndexer V)
    (addrs : List Nat)
    (h : (n.txindex = none ∧ n.addrindex.isSome) ∨
         (n.txindex.isSome ∧ n.addrindex = none)) :
    n.getMetaByAddress addrs = some (n.mempoolindex.getMetaByAddress addrs) := by
  unfold FullNodeIndexer.getMetaByAddress
  rcases h with ⟨h1, h2⟩ | ⟨h1, h2⟩
  · rcases Option.isSome_iff_exists.mp h2 with ⟨ai, hai⟩
    simp [h1, hai]
  · rcases Option.isSome_iff_exists.mp h1 with ⟨txi, htxi⟩
    simp [htxi, h2]

/-- Witness for C10: a transaction index alone is never consulted; the
result is the mempool matches only. -/
theorem getMetaByAddress_single_index_witness :
    FullNodeIndexer.getMetaByAddress nodeTxOnly [7] =
      some (nodeTxOnly.mempoolindex.getMetaByAddress [7]) :=
  getMetaByAddress_single_index nodeTxOnly [7] (Or.inr ⟨rfl, rfl⟩)

/-- C9: after init(), every error event of a configured sub-index — the
transaction index and address index when configured, and always the
mempool index — is re-emitted as an error on the facade. -/
theorem init_error_propagation {V : Type} (n : FullNodeIndexer V) (e : Nat) :
    n.facadeErrors SubIndex.mempoolidx e = [e] ∧
    (n.txindex.isSome → n.facadeErrors SubIndex.txidx e = [e]) ∧
    (n.addrindex.isSome → n.facadeErrors SubIndex.addridx e = [e]) := by
  cases htx : n.txindex <;> cases had : n.addrindex <;>
    simp [FullNodeIndexer.facadeErrors, FullNodeIndexer.initWired, htx, had]

/-- Witness for C9: a configured transaction index's error is re-emitted. -/
theorem init_error_propagation_witness :
    FullNodeIndexer.facadeErrors nodeBoth SubIndex.txidx 5 = [5] :=
  (init_error_propagation nodeBoth 5).2.1 rfl

/-- C8: every HTTP query handler rejects a missing or unparsable required
parameter, and SPV mode, with a statusCode-400 client error, without
invoking any aggregator read method — the rejection is identical for any
facade with the same SPV flag, so core state is untouched. -/
theorem http_handlers_client_error {V : Type} (n : FullNodeIndexer V)
    (parseAddr : String → Option Nat) :
    (∀ p : Option String,
      p = none ∨ n.spv = true ∨ (∃ s, p = some s ∧ parseAddr s = none) →
      ∃ e, coinAddressGet n parseAddr p = Except.error e ∧ e.statusCode = 400 ∧
        ∀ n2 : FullNodeIndexer V, n2.spv = n.spv →
          coinAddressGet n2 parseAddr p = coinAddressGet n parseAddr p) ∧
    (∀ p : Option (List Nat),
      p = none ∨ n.spv = true →
      ∃ e, coinAddressPost n p = Except.error e ∧ e.statusCode = 400 ∧
        ∀ n2 : FullNodeIndexer V, n2.spv = n.spv →
          coinAddressPost n2 p = coinAddressPost n p) ∧
    (∀ p : Option Nat,
      p = none ∨ n.spv = true →
      ∃ e, txHashGet n p = Except.error e ∧ e.statusCode = 400 ∧
        ∀ n2 : FullNodeIndexer V, n2.spv = n.spv →
          txHashGet n2 p = txHashGet n p) ∧
    (∀ p : Option String,
      p = none ∨ n.spv = true ∨ (∃ s, p = some s ∧ parseAddr s = none) →
      ∃ e, txAddressGet n parseAddr p = Except.error e ∧ e.statusCode = 400 ∧
        ∀ n2 : FullNodeIndexer V, n2.spv = n.spv →
          txAddressGet n2 parseAddr p = txAddressGet n parseAddr p) ∧
    (∀ p : Option (List Nat),
      p = none ∨ n.spv = true →
      ∃ e, txAddressPost n p = Except.error e ∧ e.statusCode = 400 ∧
        ∀ n2 : FullNodeIndexer V, n2.spv = n.spv →
          txAddressPost n2 p = txAddressPost n p) := by
  refine ⟨?_, ?_, ?_, ?_, ?_⟩
  · intro p hp
    cases p with
    | none =>
      exact ⟨{ statusCode := 400, message := "Address is required." }, rfl, rfl,
        fun n2 _ => rfl⟩
    | some s =>
      cases hspv : n.spv with
      | true =>
        refine ⟨{ statusCode := 400, message := "Cannot get coins in SPV mode." },
          ?_, rfl, ?_⟩
        · simp [coinAddressGet, enforceCheck, hspv]
        · intro n2 h2
          simp [coinAddressGet, enforceCheck, hspv, h2]
      | false =>
        rcases hp with h | h | ⟨s2, hs2, hparse⟩
        · exact absurd h (by simp)
        · exact absurd h (by simp [hspv])
        · rw [Option.some_inj] at hs2
          subst hs2
          refine ⟨{ statusCode := 400, message := "Invalid address." }, ?_, rfl, ?_⟩
          · simp [coinAddressGet, enforceCheck, addressFromString, hspv, hparse]
          · intro n2 h2
            simp [coinAddressGet, enforceCheck, addressFromString, hspv, hparse, h2]
  · intro p hp
    cases p with
    | none =>
      exact ⟨{ statusCode := 400, message := "Address is required." }, rfl, rfl,
        fun n2 _ => rfl⟩
    | some addrs =>
      rcases hp with h | hspv
      · exact absurd h (by simp)
      · refine ⟨{ statusCode := 400, message := "Cannot get coins in SPV mode." },
          ?_, rfl, ?_⟩
        · simp [coinAddressPost, enforceCheck, hspv]
        · intro n2 h2
          simp [coinAddressPost, enforceCheck, hspv, h2]
  · intro p hp
    cases p with
    | none =>
      exact ⟨{ statusCode := 400, message := "Hash is required." }, rfl, rfl,
        fun n2 _ => rfl⟩
    | some h =>
      rcases hp with h2 | hspv
      · exact absurd h2 (by simp)
      · refine ⟨{ statusCode := 400, message := "Cannot get TX in SPV mode." },
          ?_, rfl, ?_⟩
        · simp [txHashGet, enforceCheck, hspv]
        · intro n2 h3
          simp [txHashGet, enforceCheck, hspv, h3]
  · intro p hp
    cases p with
    | none =>
      exact ⟨{ statusCode := 400, message := "Address is required." }, rfl, rfl,
        fun n2 _ => rfl⟩
    | some s =>
      cases hspv : n.spv with
      | true =>
        refine ⟨{ statusCode := 400, message := "Cannot get TX in SPV mode." },
          ?_, rfl, ?_⟩
        · simp [txAddressGet, enforceCheck, hspv]
        · intro n2 h2
          simp [txAddressGet, enforceCheck, hspv, h2]
      | false =>
        rcases hp with h | h | ⟨s2, hs2, hparse⟩
        · exact absurd h (by simp)
        · exact absurd h (by simp [hspv])
        · rw [Option.some_inj] at hs2
          subst hs2
          refine ⟨{ statusCode := 400, message := "Invalid address." }, ?_, rfl, ?_⟩
          · simp [txAddressGet, enforceCheck, addressFromString, hspv, hparse]
          · intro n2 h2
            simp [txAddressGet, enforceCheck, addressFromString, hspv, hparse, h2]
  · intro p hp
    cases p with
    | none =>
      exact ⟨{ statusCode := 400, message := "Address is required." }, rfl, rfl,
        fun n2 _ => rfl⟩
    | some addrs =>
      rcases hp with h | hspv
      · exact absurd h (by simp)
      · refine ⟨{ statusCode := 400, message := "Cannot get TX in SPV mode." },
          ?_, rfl, ?_⟩
        · simp [txAddressPost, enforceCheck, hspv]
        · intro n2 h2
          simp [txAddressPost, enforceCheck, hspv, h2]

/-- Witness for C8: a missing address parameter is rejected with a 400
error irrespective of the configured indexes. -/
theorem http_handlers_client_error_witness :
    ∃ e, coinAddressGet nodeBoth parseAddr0 none = Except.error e ∧
      e.statusCode = 400 ∧
      ∀ n2 : FullNodeIndexer Nat, n2.spv = nodeBoth.spv →
        coinAddressGet n2 parseAddr0 none = coinAddressGet nodeBoth parseAddr0 none :=
  (http_handlers_client_error nodeBoth parseAddr0).1 none (Or.inl rfl)

/-! ## Theorems: core round trip (connect exactly undone by disconnect) -/

/-- Membership after folding inserts: the original set or the list. -/
theorem mem_foldl_insert (l : List Coin) (s : Finset Coin) (c : Coin) :
    c ∈ l.foldl (fun t x => insert x t) s ↔ c ∈ s ∨ c ∈ l := by
  induction l generalizing s with
  | nil => simp
  | cons x xs ih =>
    simp only [List.foldl_cons, ih, Finset.mem_insert, List.mem_cons]
    tauto

/-- Membership in the coin set after adding a transaction's outputs. -/
theorem mem_addOutputs {s : Finset Coin} {tx : TX} {h : Int} {c : Coin} :
    c ∈ addOutputs s tx h ↔ c ∈ s ∨ c ∈ outputCoins tx h :=
  mem_foldl_insert _ _ _

/-- Membership in the coin set after one spend. -/
theorem mem_spendCoin {s : Finset Coin} {o : Outpoint} {c : Coin} :
    c ∈ spendCoin s o ↔ c ∈ s ∧ ¬ coinMatches c o :=
  Finset.mem_filter

/-- Spending only removes coins. -/
theorem spendInputs_subset (s : Finset Coin) (ins : List Outpoint) :
    spendInputs s ins ⊆ s := by
  induction ins generalizing s with
  | nil => exact Finset.Subset.refl s
  | cons o rest ih =>
    exact (ih (spendCoin s o)).trans (Finset.filter_subset _ s)

/-- After spending a list containing outpoint `o`, no coin matches `o`. -/
theorem not_matches_of_spendInputs {s : Finset Coin} {ins : List Outpoint}
    {o : Outpoint} (ho : o ∈ ins) :
    ∀ c ∈ spendInputs s ins, ¬ coinMatches c o := by
  induction ins generalizing s with
  | nil => exact absurd ho (List.not_mem_nil o)
  | cons o2 rest ih =>
    intro c hc
    rcases List.mem_cons.mp ho with rfl | hmem
    · have hsub : c ∈ spendCoin s o := spendInputs_subset (spendCoin s o) rest hc
      exact (mem_spendCoin.mp hsub).2
    · exact ih hmem c hc

/-- Every output coin of `tx` carries the hash of `tx`. -/
theorem outputCoins_hash {tx : TX} {h : Int} {c : Coin}
    (hc : c ∈ outputCoins tx h) : c.hash = tx.hash := by
  rcases List.mem_map.mp hc with ⟨p, _, rfl⟩
  rfl

/-- Characterization of the output coins of a transaction. -/
theorem mem_outputCoins {tx : TX} {h : Int} {c : Coin} :
    c ∈ outputCoins tx h ↔
      ∃ i out, tx.outputs.get? i = some out ∧ c = mkCoin tx.hash i out h := by
  unfold outputCoins
  simp only [List.mem_map, Prod.exists, List.mem_enum_iff_get?]
  exact ⟨fun ⟨i, out, hi, he⟩ => ⟨i, out, hi, he.symm⟩,
    fun ⟨i, out, hi, he⟩ => ⟨i, out, hi, he.symm⟩⟩

/-- Removing a transaction's outputs after adding them restores the coin
set, provided no prior coin carried the transaction's hash. -/
theorem removeOutputs_addOutputs {s : Finset Coin} {tx : TX} {h : Int}
    (hs : ∀ c ∈ s, c.hash ≠ tx.hash) :
    removeOutputs (addOutputs s tx h) tx = s := by
  ext c
  simp only [removeOutputs, Finset.mem_filter, mem_addOutputs]
  constructor
  · rintro ⟨hc | hc, hne⟩
    · exact hc
    · exact absurd (outputCoins_hash hc) hne
  · intro hc
    exact ⟨Or.inl hc, hs c hc⟩

/-- Restoring an outpoint after spending it recovers the original coin set,
when the spent coin is unique and reconstructible from the store. -/
theorem restoreCoin_spendCoin {store : Nat → Option TXMeta} {s : Finset Coin}
    {o : Outpoint} {coin : Coin} (hmem : coin ∈ s)
    (hmatch : coinMatches coin o)
    (huniq : ∀ c ∈ s, coinMatches c o → c = coin)
    (hstore : ∃ m out, store o.txid = some m ∧
      m.tx.outputs.get? o.vout = some out ∧
      mkCoin o.txid o.vout out m.height = coin) :
    restoreCoin store (spendCoin s o) o = s := by
  rcases hstore with ⟨m, out, hm, hout, hmk⟩
  simp only [restoreCoin, hm, hout, hmk]
  have hspend : spendCoin s o = s.erase coin := by
    ext c
    simp only [spendCoin, Finset.mem_filter, Finset.mem_erase]
    constructor
    · rintro ⟨hc, hnm⟩
      exact ⟨fun he => hnm (he ▸ hmatch), hc⟩
    · rintro ⟨hne, hc⟩
      exact ⟨hc, fun hm2 => hne (huniq c hc hm2)⟩
  rw [hspend, Finset.insert_erase hmem]

/-- Restoring a transaction's inputs after spending them recovers the
original coin set. -/
theorem restoreInputs_spendInputs {store : Nat → Option TXMeta}
    {s : Finset Coin} {ins : List Outpoint} (h : restorable store s ins) :
    restoreInputs store (spendInputs s ins) ins = s := by
  induction ins generalizing s with
  | nil => rfl
  | cons o rest ih =>
    rcases h with ⟨⟨coin, hmem, hmatch, huniq, hstore⟩, hrest⟩
    show restoreCoin store
      (restoreInputs store (spendInputs (spendCoin s o) rest) rest) o = s
    rw [ih hrest]
    exact restoreCoin_spendCoin hmem hmatch huniq hstore

/-- Single-transaction round trip: `disconnectTx` exactly undoes
`connectTx`. -/
theorem disconnectTx_connectTx {h : Int} {C : Content} {tx : TX}
    (hfresh : C.txs tx.hash = none)
    (hcoins : ∀ c ∈ C.coins, c.hash ≠ tx.hash)
    (hrest : restorable (connectTx h C tx).txs C.coins tx.inputs) :
    disconnectTx (connectTx h C tx) tx = C := by
  cases C with
  | mk ctxs ccoins =>
    simp only [disconnectTx, connectTx] at *
    congr 1
    · funext k
      by_cases hk : k = tx.hash
      · subst hk
        simp [hfresh]
      · simp [hk]
    · rw [removeOutputs_addOutputs
        (fun c hc => hcoins c (spendInputs_subset ccoins tx.inputs hc))]
      exact restoreInputs_spendInputs hrest

/-- Transaction-list round trip: folding disconnects over the fold of
connects recovers the initial content. -/
theorem foldr_disc_foldl_conn {h : Int} (ts : List TX) :
    ∀ C : Content, blockOk h C ts →
      ts.foldr (fun tx acc => disconnectTx acc tx) (ts.foldl (connectTx h) C) = C := by
  induction ts with
  | nil => intro C _; rfl
  | cons t rest ih =>
    intro C hok
    rcases hok with ⟨h1, h2, h3, h4⟩
    show disconnectTx
      (rest.foldr (fun tx acc => disconnectTx acc tx)
        (rest.foldl (connectTx h) (connectTx h C t))) t = C
    rw [ih (connectTx h C t) h4]
    exact disconnectTx_connectTx h1 h2 h3

/-- Block-level round trip: `unindexBlock` exactly undoes `indexBlock`. -/
theorem unindexBlock_indexBlock {C : Content} {b : Block} {h : Int}
    (hok : blockOk h C b.txs) :
    unindexBlock (indexBlock C h b) b = C :=
  foldr_disc_foldl_conn b.txs C hok

/-! ## Theorems: content invariant and checker soundness -/

/-- The empty content satisfies the invariant with empty domain. -/
theorem contentInv_empty : ContentInv Content.empty ∅ := by
  refine ⟨?_, ?_, ?_⟩
  · intro k
    simp [Content.empty]
  · intro k m hm
    simp [Content.empty] at hm
  · intro c hc
    simp [Content.empty] at hc

/-- Under the invariant, every coin's funding hash is in the domain. -/
theorem inv_coin_hash_mem {C : Content} {used : Finset Nat}
    (hinv : ContentInv C used) {c : Coin} (hc : c ∈ C.coins) :
    c.hash ∈ used := by
  rcases hinv.2.2 c hc with ⟨m, _, hm, _, _⟩
  exact (hinv.1 c.hash).mp (by simp [hm])

/-- Under the invariant, coins are determined by their outpoint. -/
theorem inv_coins_uniq {C : Content} {used : Finset Nat}
    (hinv : ContentInv C used) :
    ∀ c1 ∈ C.coins, ∀ c2 ∈ C.coins,
      c1.hash = c2.hash → c1.index = c2.index → c1 = c2 := by
  intro c1 h1 c2 h2 hh hi
  rcases hinv.2.2 c1 h1 with ⟨m1, out1, hm1, hout1, hc1⟩
  rcases hinv.2.2 c2 h2 with ⟨m2, out2, hm2, hout2, hc2⟩
  rw [hh] at hm1
  rw [hm1] at hm2
  injection hm2 with hm12
  rw [hi, hm12] at hout1
  rw [hout1] at hout2
  injection hout2 with hout12
  rw [hc1, hc2, hh, hi, hm12, hout12]

/-- A transaction's inputs are restorable whenever the sequential presence
check passes, the coins are outpoint-determined, and the store reconstructs
each coin. -/
theorem restorable_of_checkInputs {store : Nat → Option TXMeta}
    {Cc : Finset Coin} :
    ∀ (ins : List Outpoint) (s : Finset Coin), s ⊆ Cc →
    (∀ c1 ∈ Cc, ∀ c2 ∈ Cc, c1.hash = c2.hash → c1.index = c2.index → c1 = c2) →
    (∀ c ∈ Cc, ∃ m out, store c.hash = some m ∧
      m.tx.outputs.get? c.index = some out ∧
      c = mkCoin c.hash c.index out m.height) →
    checkInputs s ins = true →
    restorable store s ins := by
  intro ins
  induction ins with
  | nil => intro s _ _ _ _; trivial
  | cons o rest ih =>
    intro s hsub huniq hstore hchk
    rcases Bool.and_eq_true_iff.mp hchk with ⟨hsp, hrest⟩
    have hex : ∃ c ∈ s, coinMatches c o := of_decide_eq_true hsp
    rcases hex with ⟨coin, hmem, hmatch⟩
    refine ⟨⟨coin, hmem, hmatch, ?_, ?_⟩, ?_⟩
    · intro c hc hmc
      exact huniq c (hsub hc) coin (hsub hmem)
        (hmc.1.trans hmatch.1.symm) (hmc.2.trans hmatch.2.symm)
    · rcases hstore coin (hsub hmem) with ⟨m, out, hm, hout, hcoin⟩
      refine ⟨m, out, ?_, ?_, ?_⟩
      · rw [← hmatch.1]
        exact hm
      · rw [← hmatch.2]
        exact hout
      · rw [← hmatch.1, ← hmatch.2]
        exact hcoin.symm
    · exact ih (spendCoin s o)
        ((Finset.filter_subset _ s).trans hsub) huniq hstore hrest

/-- Connecting a fresh transaction preserves the content invariant. -/
theorem contentInv_connectTx {C : Content} {used : Finset Nat} {h : Int}
    {t : TX} (hinv : ContentInv C used) (hfresh : t.hash ∉ used) :
    ContentInv (connectTx h C t) (insert t.hash used) := by
  refine ⟨?_, ?_, ?_⟩
  · intro k
    by_cases hk : k = t.hash
    · subst hk
      simp [connectTx]
    · simp only [connectTx, if_neg hk, Finset.mem_insert]
      rw [hinv.1 k]
      exact ⟨fun hm => Or.inr hm, fun hm => hm.elim (fun he => absurd he hk) id⟩
  · intro k m hm
    by_cases hk : k = t.hash
    · subst hk
      simp only [connectTx, if_pos rfl] at hm
      injection hm with hm2
      rw [← hm2]
    · simp only [connectTx, if_neg hk] at hm
      exact hinv.2.1 k m hm
  · intro c hc
    rcases mem_addOutputs.mp hc with hold | hnew
    · have hcc : c ∈ C.coins := spendInputs_subset C.coins t.inputs hold
      rcases hinv.2.2 c hcc with ⟨m, out, hm, hout, hcoin⟩
      have hne : c.hash ≠ t.hash := by
        intro he
        exact hfresh (he ▸ inv_coin_hash_mem hinv hcc)
      exact ⟨m, out, by simp only [connectTx, if_neg hne]; exact hm, hout, hcoin⟩
    · rcases mem_outputCoins.mp hnew with ⟨i, out, hget, rfl⟩
      refine ⟨{ tx := t, height := h }, out, ?_, ?_, rfl⟩
      · simp [connectTx, mkCoin]
      · exact hget

/-- Soundness of the per-block transaction check: it certifies exact
undoability and preserves the invariant, and its final coin set is the
content's. -/
theorem checkTxs_sound {h : Int} :
    ∀ (ts : List TX) (C : Content) (used u2 : Finset Nat) (s2 : Finset Coin),
    ContentInv C used →
    checkTxs used C.coins h ts = some (u2, s2) →
    blockOk h C ts ∧ ContentInv (ts.foldl (connectTx h) C) u2 ∧
      s2 = (ts.foldl (connectTx h) C).coins := by
  intro ts
  induction ts with
  | nil =>
    intro C used u2 s2 hinv hchk
    simp only [checkTxs] at hchk
    injection hchk with hp
    injection hp with h1 h2
    subst h1
    subst h2
    exact ⟨trivial, hinv, rfl⟩
  | cons t rest ih =>
    intro C used u2 s2 hinv hchk
    cases hc : checkTx used C.coins t with
    | false =>
      rw [checkTxs, hc] at hchk
      simp at hchk
    | true =>
      rw [checkTxs, hc] at hchk
      simp only [if_true] at hchk
      rcases Bool.and_eq_true_iff.mp hc with ⟨hfreshb, hinputs⟩
      have hfresh : t.hash ∉ used := of_decide_eq_true hfreshb
      have hfreshC : C.txs t.hash = none := by
        rw [← Option.not_isSome_iff_eq_none]
        intro hs
        exact hfresh ((hinv.1 t.hash).mp hs)
      have hcoins : ∀ c ∈ C.coins, c.hash ≠ t.hash := by
        intro c hc2 he
        exact hfresh (he ▸ inv_coin_hash_mem hinv hc2)
      have hstore2 : ∀ c ∈ C.coins, ∃ m out,
          (connectTx h C t).txs c.hash = some m ∧
          m.tx.outputs.get? c.index = some out ∧
          c = mkCoin c.hash c.index out m.height := by
        intro c hc2
        rcases hinv.2.2 c hc2 with ⟨m, out, hm, hout, hcoin⟩
        exact ⟨m, out,
          by simp only [connectTx, if_neg (hcoins c hc2)]; exact hm, hout, hcoin⟩
      have hrestorable :
          restorable (connectTx h C t).txs C.coins t.inputs :=
        restorable_of_checkInputs t.inputs C.coins (Finset.Subset.refl _)
          (inv_coins_uniq hinv) hstore2 hinputs
      have hinv2 : ContentInv (connectTx h C t) (insert t.hash used) :=
        contentInv_connectTx hinv hfresh
      have hstep : stepCoins C.coins h t = (connectTx h C t).coins := rfl
      rw [hstep] at hchk
      rcases ih (connectTx h C t) (insert t.hash used) u2 s2 hinv2 hchk with
        ⟨hok, hinv3, hs2⟩
      exact ⟨⟨hfreshC, hcoins, hrestorable, hok⟩, hinv3, hs2⟩

/-- The block checker splits over list append, shifting the height base. -/
theorem checkBlocksSt_append (l1 l2 : List Block) :
    ∀ (used : Finset Nat) (s : Finset Coin) (h : Int),
    checkBlocksSt used s h (l1 ++ l2) =
      (checkBlocksSt used s h l1).bind
        (fun p => checkBlocksSt p.1 p.2 (h + l1.length) l2) := by
  induction l1 with
  | nil =>
    intro used s h
    simp [checkBlocksSt]
  | cons b rest ih =>
    intro used s h
    simp only [List.cons_append, checkBlocksSt]
    cases hct : checkTxs used s h b.txs with
    | none => simp
    | some p =>
      dsimp only
      rw [show rest.append l2 = rest ++ l2 from rfl, ih]
      congr 1
      funext q
      congr 1
      simp only [List.length_cons]
      push_cast
      ring

/-- Folding connects appends to the applied block list. -/
theorem foldl_applyConnect_applied :
    ∀ (l : List Block) (st : IndexerState),
    (l.foldl applyConnect st).applied = st.applied ++ l := by
  intro l
  induction l with
  | nil => intro st; simp
  | cons b rest ih =>
    intro st
    rw [List.foldl_cons, ih (applyConnect st b)]
    simp [applyConnect]

/-- Sequential indexing applies exactly the chain. -/
theorem indexChain_applied (chain : List Block) :
    (indexChain chain).applied = chain := by
  unfold indexChain
  rw [foldl_applyConnect_applied]
  rfl

/-- State-level soundness of the block checker: it tracks the content
produced by folding connects, and preserves the invariant. -/
theorem checkBlocksSt_sound :
    ∀ (l : List Block) (st : IndexerState) (used u2 : Finset Nat)
      (s2 : Finset Coin),
    ContentInv st.content used →
    checkBlocksSt used st.content.coins (st.applied.length : Int) l =
      some (u2, s2) →
    ContentInv (l.foldl applyConnect st).content u2 ∧
      s2 = (l.foldl applyConnect st).content.coins := by
  intro l
  induction l with
  | nil =>
    intro st used u2 s2 hinv hchk
    simp only [checkBlocksSt] at hchk
    injection hchk with hp
    rw [Prod.mk.injEq] at hp
    rcases hp with ⟨h1, h2⟩
    subst h1
    subst h2
    exact ⟨hinv, rfl⟩
  | cons b rest ih =>
    intro st used u2 s2 hinv hchk
    simp only [checkBlocksSt] at hchk
    cases hct : checkTxs used st.content.coins (st.applied.length : Int) b.txs with
    | none =>
      rw [hct] at hchk
      simp at hchk
    | some p =>
      rw [hct] at hchk
      obtain ⟨pu, ps⟩ := p
      rcases checkTxs_sound b.txs st.content used pu ps hinv hct with
        ⟨_, hinv2, hps⟩
      have hcontent : (applyConnect st b).content =
          b.txs.foldl (connectTx (st.applied.length : Int)) st.content := rfl
      have hlen : ((applyConnect st b).applied.length : Int) =
          (st.applied.length : Int) + 1 := by
        simp [applyConnect]
      simp only [List.foldl_cons]
      apply ih (applyConnect st b) pu u2 s2
      · rw [hcontent]
        exact hinv2
      · rw [hlen]
        have hps2 : (applyConnect st b).content.coins = ps := by
          rw [hcontent, ← hps]
        rw [hps2]
        exact hchk

/-- A valid chain extended by one block: the prior chain is valid and the
new block's transactions are exactly undoable at the indexed content. -/
theorem valid_append_one {hist : List Block} {b : Block}
    (hv : validChain (hist ++ [b]) = true) :
    validChain hist = true ∧
    blockOk (hist.length : Int) (indexChain hist).content b.txs := by
  unfold validChain at hv ⊢
  rw [checkBlocksSt_append] at hv
  cases hh : checkBlocksSt ∅ ∅ 0 hist with
  | none =>
    rw [hh] at hv
    simp at hv
  | some p =>
    rw [hh] at hv
    simp only [Option.some_bind] at hv
    obtain ⟨pu, ps⟩ := p
    have hck0 := checkBlocksSt_sound hist IndexerState.initial ∅ pu ps
      contentInv_empty hh
    rcases hck0 with ⟨hinv, hps⟩
    constructor
    · simp [hh]
    · rw [zero_add] at hv
      simp only [checkBlocksSt] at hv
      cases hct : checkTxs pu ps (hist.length : Int) b.txs with
      | none =>
        rw [hct] at hv
        simp at hv
      | some q =>
        obtain ⟨qu, qs⟩ := q
        have hct2 : checkTxs pu (indexChain hist).content.coins
            (hist.length : Int) b.txs = some (qu, qs) := by
          show checkTxs pu
            (List.foldl applyConnect IndexerState.initial hist).content.coins
            (hist.length : Int) b.txs = some (qu, qs)
          rw [← hps]
          exact hct
        rcases checkTxs_sound b.txs (indexChain hist).content pu qu qs
          hinv hct2 with ⟨hok, _, _⟩
        exact hok

/-- Componentwise equality of index states. -/
theorem IndexerState.eq_of {a b : IndexerState} (h1 : a.applied = b.applied)
    (h2 : a.content = b.content) : a = b := by
  cases a
  cases b
  simp only at h1 h2
  rw [h1, h2]

/-- Disconnecting the tip block of a valid chain rewinds sequential
indexing by exactly one block. -/
theorem unindex_tip {B : List Block} {b : Block}
    (hv : validChain (B ++ [b]) = true) :
    applyDisconnect (indexChain (B ++ [b])) b = indexChain B := by
  rcases valid_append_one hv with ⟨_, hok⟩
  have heq : indexChain (B ++ [b]) = applyConnect (indexChain B) b := by
    unfold indexChain
    rw [List.foldl_append]
    rfl
  rw [heq]
  refine IndexerState.eq_of ?_ ?_
  · show ((indexChain B).applied ++ [b]).dropLast = (indexChain B).applied
    exact List.dropLast_concat
  · show unindexBlock
      (indexBlock (indexChain B).content ((indexChain B).applied.length : Int) b)
      b = (indexChain B).content
    rw [indexChain_applied]
    exact unindexBlock_indexBlock hok

/-- The disconnect phase of a sync pass rewinds a valid applied chain to
its prefix at the fork point. -/
theorem sync_disconnect_phase :
    ∀ (A : List Block), validChain A = true → ∀ k, k ≤ A.length →
    (disconnectOps A k).foldl applyOp (indexChain A) = indexChain (A.take k) := by
  intro A
  induction A using List.reverseRecOn with
  | nil =>
    intro _ k hk
    have hz : k = 0 := Nat.le_zero.mp hk
    subst hz
    rfl
  | append_singleton B b ih =>
    intro hv k hk
    rcases Nat.lt_or_ge k (B ++ [b]).length with hlt | hge
    · have hkB : k ≤ B.length := by
        simp only [List.length_append, List.length_singleton] at hlt
        omega
      have hvB := (valid_append_one hv).1
      have hops : disconnectOps (B ++ [b]) k =
          SyncOp.disconnect b :: disconnectOps B k := by
        unfold disconnectOps
        rw [List.drop_append_of_le_length hkB]
        simp
      rw [hops, List.foldl_cons]
      rw [show applyOp (indexChain (B ++ [b])) (SyncOp.disconnect b) =
        applyDisconnect (indexChain (B ++ [b])) b from rfl]
      rw [unindex_tip hv, ih hvB k hkB, List.take_append_of_le_length hkB]
    · have hkeq : k = (B ++ [b]).length := Nat.le_antisymm hk hge
      subst hkeq
      unfold disconnectOps
      rw [List.drop_length]
      rw [List.take_length]
      rfl

/-- Folding connect operations is folding connects. -/
theorem foldl_applyOp_map_connect :
    ∀ (l : List Block) (st : IndexerState),
    (l.map SyncOp.connect).foldl applyOp st = l.foldl applyConnect st := by
  intro l
  induction l with
  | nil => intro st; rfl
  | cons b rest ih => intro st; exact ih (applyConnect st b)

/-- Reattaching over an intact prefix finds the fork point at the detach
height: the stored hash there still matches the chain. -/
theorem forkPoint_take (chain : List Block) (h : Nat)
    (hle : h ≤ chain.length) :
    forkPoint chain (chain.take h) = h := by
  unfold forkPoint
  rw [List.length_take, Nat.min_eq_left hle]
  cases h with
  | zero => rfl
  | succ j =>
    have hcond : heightHash chain j = heightHash (chain.take (j + 1)) j := by
      unfold heightHash
      rw [List.get?_take (Nat.lt_succ_self j)]
    unfold forkSearch
    rw [if_pos hcond]

/-- C2: detaching an index at height `h`, letting the chain grow, and
reattaching yields, after the sync pass, exactly the state continuous
indexing would have produced: the sync performs precisely the connects of
the missed blocks, the recorded height equals the chain height, and all
address and metadata queries agree with continuous indexing. -/
theorem detach_reattach_matches_continuous (chain : List Block) (h : Nat)
    (hle : h ≤ chain.length) :
    sync chain (indexChain (chain.take h)) = indexChain chain ∧
    syncOps chain (indexChain (chain.take h)) =
      (chain.drop h).map SyncOp.connect ∧
    (sync chain (indexChain (chain.take h))).applied.length = chain.length ∧
    (∀ a, (sync chain (indexChain (chain.take h))).content.getCoinsByAddress a =
      (indexChain chain).content.getCoinsByAddress a) ∧
    (∀ k, (sync chain (indexChain (chain.take h))).content.getMeta k =
      (indexChain chain).content.getMeta k) := by
  have hops : syncOps chain (indexChain (chain.take h)) =
      (chain.drop h).map SyncOp.connect := by
    unfold syncOps
    rw [indexChain_applied, forkPoint_take chain h hle]
    have hdis : disconnectOps (chain.take h) h = [] := by
      unfold disconnectOps
      rw [List.drop_eq_nil_of_le]
      · rfl
      · rw [List.length_take]
        exact Nat.min_le_left _ _
    rw [hdis, List.nil_append]
  have hsync : sync chain (indexChain (chain.take h)) = indexChain chain := by
    unfold sync
    rw [hops, foldl_applyOp_map_connect]
    unfold indexChain
    rw [← List.foldl_append, List.take_append_drop]
  refine ⟨hsync, hops, ?_, ?_, ?_⟩
  · rw [hsync, indexChain_applied]
  · intro a
    rw [hsync]
  · intro k
    rw [hsync]

/-- Witness for C2: detach at height 1 of a 2-block chain, reattach, and
converge to the continuous result. -/
theorem detach_reattach_matches_continuous_witness :
    1 ≤ ([blkG, blkA1] : List Block).length ∧
    sync [blkG, blkA1] (indexChain ([blkG, blkA1].take 1)) =
      indexChain [blkG, blkA1] :=
  ⟨by decide,
   (detach_reattach_matches_continuous [blkG, blkA1] 1 (by decide)).1⟩

/-! ## Theorems: fork point analysis and reorg correctness -/

/-- The backward walk never goes above its starting height. -/
theorem forkSearch_le (chain applied : List Block) :
    ∀ j, forkSearch chain applied j ≤ j := by
  intro j
  induction j with
  | zero => exact Nat.le_refl 0
  | succ m ih =>
    unfold forkSearch
    by_cases hc : heightHash chain m = heightHash applied m
    · rw [if_pos hc]
    · rw [if_neg hc]
      exact ih.trans (Nat.le_succ m)

/-- The backward walk stops at the genesis floor or at a height where the
hashes match. -/
theorem forkSearch_spec (chain applied : List Block) :
    ∀ j, j ≤ applied.length →
    forkSearch chain applied j = 0 ∨
    ∃ m, forkSearch chain applied j = m + 1 ∧
      heightHash chain m = heightHash applied m ∧ m < applied.length := by
  intro j
  induction j with
  | zero => intro _; exact Or.inl rfl
  | succ m ih =>
    intro hj
    unfold forkSearch
    by_cases hc : heightHash chain m = heightHash applied m
    · rw [if_pos hc]
      exact Or.inr ⟨m, rfl, hc, hj⟩
    · rw [if_neg hc]
      exact ih (Nat.le_of_succ_le hj)

/-- In a hash-linked list, each block's previous hash is its predecessor's
hash. -/
theorem linked_get? :
    ∀ (l : List Block) (p : Nat), linked p l = true →
    ∀ i b1 b2, l.get? i = some b1 → l.get? (i + 1) = some b2 →
    b2.prev = b1.hash := by
  intro l
  induction l with
  | nil =>
    intro p _ i b1 b2 h1
    simp at h1
  | cons x rest ih =>
    intro p hl i b1 b2 h1 h2
    rcases Bool.and_eq_true_iff.mp hl with ⟨_, hrest⟩
    cases i with
    | zero =>
      injection h1 with h1e
      subst h1e
      cases rest with
      | nil => simp at h2
      | cons y rest2 =>
        injection h2 with h2e
        subst h2e
        rcases Bool.and_eq_true_iff.mp hrest with ⟨hy, _⟩
        exact of_decide_eq_true hy
    | succ i2 => exact ih x.hash hrest i2 b1 b2 h1 h2

/-- Collision freedom gives block equality from hash equality. -/
theorem hashFaithful_mem :
    ∀ (l : List Block), hashFaithful l = true →
    ∀ x ∈ l, ∀ y ∈ l, x.hash = y.hash → x = y := by
  intro l
  induction l with
  | nil =>
    intro _ x hx
    exact absurd hx (List.not_mem_nil x)
  | cons b rest ih =>
    intro hf x hx y hy hxy
    rcases Bool.and_eq_true_iff.mp hf with ⟨hall, hrest⟩
    have hall2 : ∀ z ∈ rest, b.hash = z.hash → b = z := by
      intro z hz
      exact of_decide_eq_true (List.all_eq_true.mp hall z hz)
    rcases List.mem_cons.mp hx with rfl | hx2 <;>
      rcases List.mem_cons.mp hy with rfl | hy2
    · rfl
    · exact hall2 y hy2 hxy
    · exact (hall2 x hx2 hxy.symm).symm
    · exact ih hrest x hx2 y hy2 hxy

/-- Two well-formed, collision-free chains agreeing on the hash at height
`i` agree on their whole prefixes up to `i`. -/
theorem take_eq_of_hash_eq (A Ch : List Block)
    (hwA : wellFormed A = true) (hwC : wellFormed Ch = true)
    (hf : hashFaithful (A ++ Ch) = true) :
    ∀ i a b, A.get? i = some a → Ch.get? i = some b → a.hash = b.hash →
    A.take (i + 1) = Ch.take (i + 1) := by
  intro i
  induction i with
  | zero =>
    intro a b ha hb hab
    have hfa : a = b := hashFaithful_mem _ hf a
      (List.mem_append_left _ (List.get?_mem ha)) b
      (List.mem_append_right _ (List.get?_mem hb)) hab
    rw [List.get?_eq_getElem?] at ha hb
    rw [List.take_succ, List.take_succ, List.take_zero, List.take_zero,
      ha, hb, hfa]
  | succ m ih =>
    intro a b ha hb hab
    have hab2 : a = b := hashFaithful_mem _ hf a
      (List.mem_append_left _ (List.get?_mem ha)) b
      (List.mem_append_right _ (List.get?_mem hb)) hab
    have hma : ∃ a2, A.get? m = some a2 := by
      rcases List.get?_eq_some.mp ha with ⟨hlt, _⟩
      exact ⟨A.get ⟨m, Nat.lt_of_succ_lt hlt⟩,
        List.get?_eq_get (Nat.lt_of_succ_lt hlt)⟩
    have hmb : ∃ b2, Ch.get? m = some b2 := by
      rcases List.get?_eq_some.mp hb with ⟨hlt, _⟩
      exact ⟨Ch.get ⟨m, Nat.lt_of_succ_lt hlt⟩,
        List.get?_eq_get (Nat.lt_of_succ_lt hlt)⟩
    rcases hma with ⟨a2, ha2⟩
    rcases hmb with ⟨b2, hb2⟩
    have hprev_a : a.prev = a2.hash := linked_get? A 0 hwA m a2 a ha2 ha
    have hprev_b : b.prev = b2.hash := linked_get? Ch 0 hwC m b2 b hb2 hb
    have hhash2 : a2.hash = b2.hash := by
      rw [← hprev_a, hab2, hprev_b]
    rw [List.get?_eq_getElem?] at ha hb
    conv_lhs => rw [List.take_succ]
    conv_rhs => rw [List.take_succ]
    rw [ih a2 b2 ha2 hb2 hhash2, ha, hb, hab2]

/-- A full sync pass from any valid indexed chain converges to exactly the
sequential indexing of the canonical chain from genesis. -/
theorem sync_reindexes_to_chain {A Ch : List Block}
    (hvA : validChain A = true) (hwA : wellFormed A = true)
    (hwC : wellFormed Ch = true) (hf : hashFaithful (A ++ Ch) = true) :
    sync Ch (indexChain A) = indexChain Ch := by
  unfold sync syncOps
  rw [indexChain_applied]
  have hkA : forkPoint Ch A ≤ A.length := forkSearch_le Ch A A.length
  have hforkpre : A.take (forkPoint Ch A) = Ch.take (forkPoint Ch A) := by
    rcases forkSearch_spec Ch A A.length (Nat.le_refl _) with h0 | hm
    · unfold forkPoint
      rw [h0]
      rfl
    · rcases hm with ⟨m, hm, hhash, hmlt⟩
      have hga : ∃ a, A.get? m = some a :=
        ⟨A.get ⟨m, hmlt⟩, List.get?_eq_get hmlt⟩
      rcases hga with ⟨a, ha⟩
      have hgb : ∃ b, Ch.get? m = some b ∧ b.hash = a.hash := by
        unfold heightHash at hhash
        rw [ha] at hhash
        cases hgc : Ch.get? m with
        | none =>
          rw [hgc] at hhash
          exact absurd hhash (by simp)
        | some b =>
          rw [hgc] at hhash
          simp only [Option.map_some', Option.some.injEq] at hhash
          exact ⟨b, rfl, hhash⟩
      rcases hgb with ⟨b, hgb, hbh⟩
      unfold forkPoint
      rw [hm]
      exact take_eq_of_hash_eq A Ch hwA hwC hf m a b ha hgb hbh.symm
  rw [List.foldl_append]
  rw [sync_disconnect_phase A hvA (forkPoint Ch A) hkA]
  rw [hforkpre, foldl_applyOp_map_connect]
  unfold indexChain
  rw [← List.foldl_append, List.take_append_drop]

/-- Transactions recorded by folding connects come from the prior store or
the folded transactions. -/
theorem foldl_connectTx_txs :
    ∀ (ts : List TX) (C : Content) (h : Int) (k : Nat) (m : TXMeta),
    (ts.foldl (connectTx h) C).txs k = some m →
    C.txs k = some m ∨ k ∈ ts.map TX.hash := by
  intro ts
  induction ts with
  | nil => intro C h k m hm; exact Or.inl hm
  | cons t rest ih =>
    intro C h k m hm
    rcases ih (connectTx h C t) h k m hm with hold | hnew
    · by_cases hk : k = t.hash
      · exact Or.inr (by rw [List.map_cons, hk]; exact List.mem_cons_self _ _)
      · simp only [connectTx, if_neg hk] at hold
        exact Or.inl hold
    · exact Or.inr (by rw [List.map_cons]; exact List.mem_cons_of_mem _ hnew)

/-- Every transaction hash recorded by sequential indexing occurs in the
chain. -/
theorem indexChain_txid_mem :
    ∀ (chain : List Block) (k : Nat) (m : TXMeta),
    (indexChain chain).content.txs k = some m → k ∈ chainTxids chain := by
  intro chain
  induction chain using List.reverseRecOn with
  | nil =>
    intro k m hm
    exact absurd hm (by simp [indexChain, IndexerState.initial, Content.empty])
  | append_singleton B b ih =>
    intro k m hm
    have heq : indexChain (B ++ [b]) = applyConnect (indexChain B) b := by
      unfold indexChain
      rw [List.foldl_append]
      rfl
    rw [heq] at hm
    have hm2 : (b.txs.foldl (connectTx ((indexChain B).applied.length : Int))
        (indexChain B).content).txs k = some m := hm
    rcases foldl_connectTx_txs b.txs (indexChain B).content _ k m hm2 with
      hold | hnew
    · have hmem := ih k m hold
      unfold chainTxids at hmem ⊢
      rw [List.append_bind]
      exact List.mem_append_left _ hmem
    · unfold chainTxids
      rw [List.append_bind]
      refine List.mem_append_right _ ?_
      rw [List.flatMap_singleton]
      exact hnew

/-- Some domain certifies the invariant for any fully indexed valid
chain. -/
theorem indexChain_inv {chain : List Block}
    (hv : validChain chain = true) :
    ∃ u, ContentInv (indexChain chain).content u := by
  unfold validChain at hv
  cases hh : checkBlocksSt ∅ ∅ 0 chain with
  | none => rw [hh] at hv; simp at hv
  | some p =>
    obtain ⟨pu, ps⟩ := p
    rcases checkBlocksSt_sound chain IndexerState.initial ∅ pu ps
      contentInv_empty hh with ⟨hinv, _⟩
    exact ⟨pu, hinv⟩

/-- Indexing a chain of single-coinbase blocks paying address `a` yields
one coin per block. -/
theorem indexChain_allPay_card :
    ∀ (chain : List Block) (a : Nat),
    validChain chain = true → allPay a chain = true →
    ((indexChain chain).content.getCoinsByAddress a).card = chain.length := by
  intro chain
  induction chain using List.reverseRecOn with
  | nil =>
    intro a _ _
    simp [indexChain, IndexerState.initial, Content.empty,
      Content.getCoinsByAddress]
  | append_singleton B b ih =>
    intro a hv hpay
    rcases valid_append_one hv with ⟨hvB, hok⟩
    have hpayB : allPay a B = true ∧ payBlock a b = true := by
      unfold allPay at hpay
      rw [List.all_append] at hpay
      rcases Bool.and_eq_true_iff.mp hpay with ⟨h1, h2⟩
      refine ⟨h1, ?_⟩
      simp only [List.all_cons, List.all_nil, Bool.and_true] at h2
      exact h2
    rcases hpayB with ⟨hpayB, hpayb⟩
    unfold payBlock at hpayb
    cases hbt : b.txs with
    | nil =>
      rw [hbt] at hpayb
      simp at hpayb
    | cons t rest =>
      cases rest with
      | cons t2 rest2 =>
        rw [hbt] at hpayb
        simp at hpayb
      | nil =>
        rw [hbt] at hpayb
        rcases Bool.and_eq_true_iff.mp hpayb with ⟨hins0, hmap0⟩
        have hins : t.inputs = [] := List.isEmpty_iff.mp hins0
        have hmap : t.outputs.map TXOut.addr = [a] := of_decide_eq_true hmap0
        cases hto : t.outputs with
        | nil =>
          rw [hto] at hmap
          simp at hmap
        | cons o1 orest =>
          cases orest with
          | cons o2 orest2 =>
            rw [hto] at hmap
            simp at hmap
          | nil =>
            rw [hto] at hmap
            simp only [List.map_cons, List.map_nil] at hmap
            injection hmap with ho1 _
            have heq : indexChain (B ++ [b]) = applyConnect (indexChain B) b := by
              unfold indexChain
              rw [List.foldl_append]
              rfl
            rw [heq]
            have hcontent : (applyConnect (indexChain B) b).content =
                connectTx ((indexChain B).applied.length : Int)
                  (indexChain B).content t := by
              show indexBlock (indexChain B).content _ b = _
              unfold indexBlock
              rw [hbt]
              rfl
            set hgt := ((indexChain B).applied.length : Int) with hhgt
            have hcoins : (connectTx hgt (indexChain B).content t).coins =
                insert (mkCoin t.hash 0 o1 hgt) (indexChain B).content.coins := by
              show addOutputs (spendInputs (indexChain B).content.coins t.inputs)
                t hgt = _
              rw [hins]
              show addOutputs (indexChain B).content.coins t hgt = _
              unfold addOutputs outputCoins
              rw [hto]
              rfl
            show ((applyConnect (indexChain B) b).content.coins.filter
              (fun coin => coin.addr = a)).card = (B ++ [b]).length
            rw [hcontent, hcoins]
            have hfresh : ∀ c ∈ (indexChain B).content.coins,
                c.hash ≠ t.hash := by
              rw [hbt] at hok
              exact hok.2.1
            have hnotmem : mkCoin t.hash 0 o1 hgt ∉
                ((indexChain B).content.coins.filter
                  (fun coin => coin.addr = a)) := by
              intro hmem
              exact hfresh _ (Finset.mem_of_mem_filter _ hmem) rfl
            rw [Finset.filter_insert,
              if_pos (show (mkCoin t.hash 0 o1 hgt).addr = a from ho1),
              Finset.card_insert_of_not_mem hnotmem]
            have hihB := ih a hvB hpayB
            unfold Content.getCoinsByAddress at hihB
            rw [hihB]
            simp

/-- C1: after a reorg replacing the applied suffix `a` with a longer
branch `n`, the sync pass converges to exactly the state sequential
indexing of the new canonical chain from genesis would produce; every
returned coin's hash resolves via the transaction index's getMeta to a
matching transaction; no result references a transaction outside the new
canonical chain; and on an all-coinbase chain the address query returns one
coin per canonical block. -/
theorem reorg_reindexes_from_genesis (p a n : List Block)
    (hvOld : validChain (p ++ a) = true)
    (hvNew : validChain (p ++ n) = true)
    (hwOld : wellFormed (p ++ a) = true)
    (hwNew : wellFormed (p ++ n) = true)
    (hf : hashFaithful ((p ++ a) ++ (p ++ n)) = true)
    (hlen : a.length < n.length) :
    sync (p ++ n) (indexChain (p ++ a)) = indexChain (p ++ n) ∧
    (sync (p ++ n) (indexChain (p ++ a))).applied.length = (p ++ n).length ∧
    (∀ coin ∈ (sync (p ++ n) (indexChain (p ++ a))).content.coins,
      ∃ m, (sync (p ++ n) (indexChain (p ++ a))).content.getMeta coin.hash =
        some m ∧ m.tx.hash = coin.hash) ∧
    (∀ coin ∈ (sync (p ++ n) (indexChain (p ++ a))).content.coins,
      coin.hash ∈ chainTxids (p ++ n)) ∧
    (∀ addr2, allPay addr2 (p ++ n) = true →
      ((sync (p ++ n) (indexChain (p ++ a))).content.getCoinsByAddress
        addr2).card = (p ++ n).length) := by
  have hsync : sync (p ++ n) (indexChain (p ++ a)) = indexChain (p ++ n) :=
    sync_reindexes_to_chain hvOld hwOld hwNew hf
  rcases indexChain_inv hvNew with ⟨u, hinv⟩
  refine ⟨hsync, ?_, ?_, ?_, ?_⟩
  · rw [hsync, indexChain_applied]
  · rw [hsync]
    intro coin hc
    rcases hinv.2.2 coin hc with ⟨m, _, hm, _, _⟩
    exact ⟨m, hm, hinv.2.1 coin.hash m hm⟩
  · rw [hsync]
    intro coin hc
    rcases hinv.2.2 coin hc with ⟨m, _, hm, _, _⟩
    exact indexChain_txid_mem (p ++ n) coin.hash m hm
  · intro addr2 hpay
    rw [hsync]
    exact indexChain_allPay_card (p ++ n) addr2 hvNew hpay

/-- Witness for C1: genesis plus one abandoned block, reorged to a
two-block replacement branch reaching greater height. -/
theorem reorg_reindexes_from_genesis_witness :
    validChain ([blkG] ++ [blkA1]) = true ∧
    validChain ([blkG] ++ [blkN1, blkN2]) = true ∧
    sync ([blkG] ++ [blkN1, blkN2]) (indexChain ([blkG] ++ [blkA1])) =
      indexChain ([blkG] ++ [blkN1, blkN2]) ∧
    ((sync ([blkG] ++ [blkN1, blkN2])
      (indexChain ([blkG] ++ [blkA1]))).content.getCoinsByAddress 7).card =
      ([blkG] ++ [blkN1, blkN2]).length :=
  ⟨by decide, by decide,
   (reorg_reindexes_from_genesis [blkG] [blkA1] [blkN1, blkN2] (by decide)
     (by decide) (by decide) (by decide) (by decide) (by decide)).1,
   (reorg_reindexes_from_genesis [blkG] [blkA1] [blkN1, blkN2] (by decide)
     (by decide) (by decide) (by decide) (by decide) (by decide)).2.2.2.2 7
     (by decide)⟩

/-- Connecting the spending transaction removes every coin at a spent
outpoint; its own outputs cannot reintroduce it. -/
theorem no_match_of_connectTx_spender {h : Int} {X : Content} {B : TX}
    {o : Outpoint} (ho : o ∈ B.inputs) (hne : B.hash ≠ o.txid) :
    ∀ c ∈ (connectTx h X B).coins, ¬ coinMatches c o := by
  intro c hc
  rcases mem_addOutputs.mp hc with hsp | hnew
  · exact not_matches_of_spendInputs ho c hsp
  · intro hm
    exact hne ((outputCoins_hash hnew).symm.trans hm.1)

/-- Later transactions with different hashes never reintroduce a coin at a
spent outpoint. -/
theorem no_match_preserved {h : Int} {o : Outpoint} :
    ∀ (ts : List TX) (X : Content),
    (∀ t ∈ ts, t.hash ≠ o.txid) →
    (∀ c ∈ X.coins, ¬ coinMatches c o) →
    ∀ c ∈ (ts.foldl (connectTx h) X).coins, ¬ coinMatches c o := by
  intro ts
  induction ts with
  | nil => intro X _ hX; exact hX
  | cons t rest ih =>
    intro X hts hX
    apply ih (connectTx h X t)
      (fun t2 ht2 => hts t2 (List.mem_cons_of_mem _ ht2))
    intro c hc
    rcases mem_addOutputs.mp hc with hsp | hnew
    · exact hX c (spendInputs_subset _ _ hsp)
    · intro hm
      exact hts t (List.mem_cons_self _ _)
        ((outputCoins_hash hnew).symm.trans hm.1)

/-- C3: in a block whose transaction A is followed (in serialization
order) by a transaction B spending output `i` of A, indexing the block
recognizes B's spend: no coin at that outpoint remains in the coin set,
whatever the numeric ordering of the two hashes, and address queries after
the block never return it. -/
theorem intra_block_spend_recognized (C : Content) (h : Int) (b : Block)
    (l1 l2 l3 : List TX) (A B : TX) (i : Nat)
    (hsplit : b.txs = l1 ++ A :: (l2 ++ B :: l3))
    (hnodup : (b.txs.map TX.hash).Nodup)
    (hspend : ({ txid := A.hash, vout := i } : Outpoint) ∈ B.inputs) :
    (∀ coin ∈ (indexBlock C h b).coins,
      ¬ coinMatches coin { txid := A.hash, vout := i }) ∧
    (∀ a2, ∀ coin ∈ (indexBlock C h b).getCoinsByAddress a2,
      ¬ coinMatches coin { txid := A.hash, vout := i }) := by
  have hsplit2 : b.txs = (l1 ++ A :: l2) ++ B :: l3 := by
    rw [hsplit, List.append_assoc, List.cons_append]
  have hne : ∀ t ∈ B :: l3, t.hash ≠ A.hash := by
    rw [hsplit, List.map_append, List.map_cons] at hnodup
    have h2 := List.Nodup.of_append_right hnodup
    rcases List.nodup_cons.mp h2 with ⟨hA_not, _⟩
    intro t ht he
    apply hA_not
    rw [List.map_append]
    refine List.mem_append_right _ ?_
    rw [← he]
    exact List.mem_map_of_mem TX.hash ht
  have hmain : ∀ coin ∈ (indexBlock C h b).coins,
      ¬ coinMatches coin { txid := A.hash, vout := i } := by
    unfold indexBlock
    rw [hsplit2, List.foldl_append, List.foldl_cons]
    apply no_match_preserved l3
    · intro t ht
      exact hne t (List.mem_cons_of_mem _ ht)
    · exact no_match_of_connectTx_spender hspend
        (hne B (List.mem_cons_self _ _))
  refine ⟨hmain, ?_⟩
  intro a2 coin hc
  exact hmain coin (Finset.mem_of_mem_filter _ hc)

/-- Witness for C3: the dependent pair with the spender's hash numerically
smaller than the funder's, placed after it in the block. -/
theorem intra_block_spend_recognized_witness :
    txSpendDep.hash < txFund.hash ∧
    ∀ coin ∈ (indexBlock Content.empty 1 blkDep).coins,
      ¬ coinMatches coin { txid := txFund.hash, vout := 0 } :=
  ⟨by decide,
   (intra_block_spend_recognized Content.empty 1 blkDep [] [] [] txFund
     txSpendDep 0 rfl (by decide) (by decide)).1⟩
